import Mathlib

/-!
Verification of the PDF content-extraction and chunking pipeline
(`extract_pdf_content.py`, `scripts/pdf_processor.py`,
`store_pdfs_in_mongodb.py`).

Texts are modelled as `List Char`; byte strings as `List Nat`.
Python-specific string semantics (whitespace splitting, stripping,
slice/index clamping and negative wrap-around) are embedded explicitly.
The chunking loop of `_create_text_chunks` / `split_into_chunks` does not
terminate on all inputs, so it is embedded with an explicit fuel
parameter, returning `none` when the fuel runs out.
-/

/-- Characters treated as whitespace by Python's `str.split()` / `str.strip()`. -/
def isSpace (c : Char) : Bool :=
  c ∈ [' ', '\t', '\n', '\r', '\x0b', '\x0c',
       '\x1c', '\x1d', '\x1e', '\x1f', '\u0085', ' ',
       ' ', ' ', ' ', ' ', ' ', ' ', ' ',
       ' ', ' ', ' ', ' ', ' ',
       ' ', ' ', ' ', ' ', '　']

/-- Python `str.lower()`, restricted to ASCII letters. -/
def pyLower (l : List Char) : List Char :=
  l.map fun c => if 'A' ≤ c ∧ c ≤ 'Z' then Char.ofNat (c.toNat + 32) else c

/-- Drop leading whitespace, as the left half of Python `str.strip()`. -/
def stripLeft (l : List Char) : List Char := l.dropWhile fun c => isSpace c

/-- Python `str.strip()`: drop leading and trailing whitespace. -/
def pyStrip (l : List Char) : List Char :=
  ((stripLeft l).reverse.dropWhile fun c => isSpace c).reverse

/-- Helper for `pySplit`: the accumulator holds the current word reversed. -/
def splitAux : List Char → List Char → List (List Char)
  | [], acc => if acc.isEmpty then [] else [acc.reverse]
  | c :: cs, acc =>
    if isSpace c then
      if acc.isEmpty then splitAux cs [] else acc.reverse :: splitAux cs []
    else splitAux cs (c :: acc)

/-- Python `str.split()` with no arguments: maximal runs of non-whitespace. -/
def pySplit (l : List Char) : List (List Char) := splitAux l []

/-- Python `len(text.split())`, the word count used for chunks and pages. -/
def wordCount (l : List Char) : Nat := (pySplit l).length

/-- Clamp a slice endpoint the way Python slicing does: negative values
count from the end (floored at 0), positive ones are capped at the length. -/
def sliceBound (n : Nat) (i : Int) : Nat :=
  if i < 0 then ((n : Int) + i).toNat else min i.toNat n

/-- Python `text[a:b]`. -/
def pySlice (t : List Char) (a b : Int) : List Char :=
  (t.take (sliceBound t.length b)).drop (sliceBound t.length a)

/-- Python `text[i]`: negative indices wrap around once.  An index that is
out of range even after wrapping yields `none`, which every caller below
propagates as the `IndexError` the source would raise at that access. -/
def pyIndex (t : List Char) (i : Int) : Option Char :=
  if 0 ≤ i then t[i.toNat]?
  else if 0 ≤ (t.length : Int) + i then t[((t.length : Int) + i).toNat]?
  else none

/-- Outcome of running a piece of the chunking code: the fuel ran out
before the loop finished, an out-of-range index access raised
`IndexError`, or the code returned a value. -/
inductive PyResult (α : Type) where
  | fuelOut : PyResult α
  | indexError : PyResult α
  | ok : α → PyResult α
deriving DecidableEq, Repr

/-- Apply a function to the value of a normal outcome. -/
def PyResult.map {α β : Type} (f : α → β) : PyResult α → PyResult β
  | .fuelOut => .fuelOut
  | .indexError => .indexError
  | .ok a => .ok (f a)

/-- Sentence-terminal characters `.!?` used by the chunkers. -/
def isTerm (c : Char) : Bool := c == '.' || c == '!' || c == '?'

/-- The scan `for i in range(end, m, -1): if text[i] in '.!?'` of both
chunkers: walk `i` downward while `i > m`, returning the first position
holding a sentence-terminal character (`.ok none` when the scan runs off
the range without a hit).  An out-of-range `text[i]` raises `IndexError`
in the source and becomes `.indexError` here.  `fuel` is the number of
remaining iterations, `(end - m).toNat` at the call site. -/
def findTermDown (t : List Char) (m : Int) : Nat → Int → PyResult (Option Int)
  | 0, _ => .ok none
  | fuel+1, i =>
    if i ≤ m then .ok none
    else
      match pyIndex t i with
      | some c => if isTerm c then .ok (some i) else findTermDown t m fuel (i - 1)
      | none => .indexError

/-- The per-iteration end computation shared verbatim by
`PDFContentExtractor._create_text_chunks` and
`PDFProcessor.split_into_chunks`: `end = start + chunk_size`, then if
`end < len(text)` snap back to just past the nearest sentence terminator
found scanning down to `max(start + chunk_size - 100, start)` exclusive.
An `IndexError` raised inside the scan propagates. -/
def chunkEnd (t : List Char) (cs start : Int) : PyResult Int :=
  let end0 := start + cs
  if end0 < (t.length : Int) then
    let m := max (start + cs - 100) start
    match findTermDown t m (end0 - m).toNat end0 with
    | .ok (some i) => .ok (i + 1)
    | .ok none => .ok end0
    | .fuelOut => .fuelOut
    | .indexError => .indexError
  else .ok end0

/-- One chunk record of `_create_text_chunks` (`chunk_id` is derived from
`chunk_index` and carries no extra information). -/
structure Chunk where
  start_char : Int
  end_char : Int
  text : List Char
  chunk_index : Nat
  word_count : Nat
deriving DecidableEq, Repr

/-- The `while start < len(text)` loop of
`PDFContentExtractor._create_text_chunks`.  A chunk is appended only when
the stripped slice is non-empty; `start` always advances to
`end - overlap`.  The loop does not terminate on all inputs, hence the
fuel; `.fuelOut` means the fuel ran out, `.indexError` that the scan for
a sentence boundary accessed the text out of range. -/
def chunkLoop (t : List Char) (cs ov : Int) : Nat → Int → Nat → PyResult (List Chunk)
  | 0, _, _ => .fuelOut
  | fuel+1, start, idx =>
    if start < (t.length : Int) then
      match chunkEnd t cs start with
      | .fuelOut => .fuelOut
      | .indexError => .indexError
      | .ok e =>
        let ct := pyStrip (pySlice t start e)
        if ct.isEmpty then chunkLoop t cs ov fuel (e - ov) idx
        else
          match chunkLoop t cs ov fuel (e - ov) (idx + 1) with
          | .fuelOut => .fuelOut
          | .indexError => .indexError
          | .ok rest => .ok (⟨start, e, ct, idx, wordCount ct⟩ :: rest)
    else .ok []

/-- `PDFContentExtractor._create_text_chunks(text, chunk_size, overlap)`:
`if not text or len(text) <= chunk_size` emit a single whole-text chunk,
otherwise run the loop. -/
def createTextChunks (t : List Char) (cs ov : Int) (fuel : Nat) :
    PyResult (List Chunk) :=
  if t.isEmpty ∨ (t.length : Int) ≤ cs then
    .ok [⟨0, (t.length : Int), t, 1, wordCount t⟩]
  else chunkLoop t cs ov fuel 0 1

/-- The `while` loop of `PDFProcessor.split_into_chunks`, which differs
from `chunkLoop` only in emitting the bare chunk strings. -/
def splitLoop (t : List Char) (cs ov : Int) : Nat → Int → PyResult (List (List Char))
  | 0, _ => .fuelOut
  | fuel+1, start =>
    if start < (t.length : Int) then
      match chunkEnd t cs start with
      | .fuelOut => .fuelOut
      | .indexError => .indexError
      | .ok e =>
        let ct := pyStrip (pySlice t start e)
        match splitLoop t cs ov fuel (e - ov) with
        | .fuelOut => .fuelOut
        | .indexError => .indexError
        | .ok rest => .ok (if ct.isEmpty then rest else ct :: rest)
    else .ok []

/-- `PDFProcessor.split_into_chunks(text, chunk_size, overlap)`: note the
guard is only `len(text) <= chunk_size`, without the extractor's
`not text` disjunct. -/
def splitIntoChunks (t : List Char) (cs ov : Int) (fuel : Nat) :
    PyResult (List (List Char)) :=
  if (t.length : Int) ≤ cs then .ok [t]
  else splitLoop t cs ov fuel 0

/-- Python `sep.join(pieces)` for a one-character separator. -/
def joinSep (s : Char) : List (List Char) → List Char
  | [] => []
  | [w] => w
  | w :: ws => w ++ s :: joinSep s ws

/-- Python `' '.join(words)`. -/
def joinSp : List (List Char) → List Char := joinSep ' '

/-- `_clean_text` / `clean_text`: collapse whitespace via
`' '.join(text.split())`, drop null characters, replace form feed and
vertical tab by spaces, apply the source's quote replacements (which
replace an ASCII `"` by itself, kept verbatim), normalize en/em dashes to
`-`, and strip.  An empty input returns `""` at once. -/
def cleanText (t : List Char) : List Char :=
  if t.isEmpty then []
  else
    let s1 := joinSp (pySplit t)
    let s2 := s1.filter fun c => c ≠ '\x00'
    let s3 := s2.map fun c => if c = '\x0c' then ' ' else c
    let s4 := s3.map fun c => if c = '\x0b' then ' ' else c
    let s5 := s4.map fun c => if c = '"' then '"' else c
    let s6 := s5.map fun c => if c = '"' then '"' else c
    let s7 := s6.map fun c => if c = '–' then '-' else c
    let s8 := s7.map fun c => if c = '—' then '-' else c
    pyStrip s8

/-- Python `needle in hay` restricted to the case needed here: does
`hay` start with `needle`? -/
def startsWithList : List Char → List Char → Bool
  | _, [] => true
  | [], _ :: _ => false
  | c :: cs, d :: ds => c == d && startsWithList cs ds

/-- Python substring test `needle in hay`. -/
def containsSub : List Char → List Char → Bool
  | [], needle => needle.isEmpty
  | c :: cs, needle => startsWithList (c :: cs) needle || containsSub cs needle

/-- The `section_patterns` dict of `PDFContentExtractor._extract_sections`
after the source's `pattern.split('|')`: the regex decorations `(?i)(` and
`)` remain glued to the first and last alternative of each pattern, so
only the middle alternatives `methodology` and `bibliography` are clean
keywords. -/
def sectionCatalog : List (String × List (List Char)) :=
  [("abstract", ["(?i)(abstract".toList, "summary)".toList]),
   ("introduction", ["(?i)(introduction".toList, "intro)".toList]),
   ("methods", ["(?i)(methods".toList, "methodology".toList,
                "materials and methods)".toList]),
   ("results", ["(?i)(results".toList, "findings)".toList]),
   ("discussion", ["(?i)(discussion".toList, "conclusion)".toList]),
   ("references", ["(?i)(references".toList, "bibliography".toList,
                   "citations)".toList]),
   ("appendix", ["(?i)(appendix".toList, "appendices)".toList])]

/-- The header test of `_extract_sections`: lowercase and strip the line,
then return the first catalog entry one of whose keywords occurs as a
substring. -/
def matchLine (line : List Char) : Option String :=
  let ll := pyStrip (pyLower line)
  (sectionCatalog.find? fun p => p.2.any fun kw => containsSub ll kw).map Prod.fst

/-- Python `text.split('\n')` (keeps empty pieces; never returns `[]`). -/
def splitNL : List Char → List (List Char)
  | [] => [[]]
  | c :: cs =>
    if c = '\n' then [] :: splitNL cs
    else
      match splitNL cs with
      | [] => [[c]]
      | w :: ws => (c :: w) :: ws

/-- Python `'\n'.join(lines)`. -/
def joinNL : List (List Char) → List Char := joinSep '\n'

/-- Python dict assignment `sections[k] = v` on an insertion-ordered
association list: overwrite in place if present, else append. -/
def assocSet (m : List (String × List Char)) (k : String) (v : List Char) :
    List (String × List Char) :=
  match m with
  | [] => [(k, v)]
  | (k', v') :: rest =>
    if k' = k then (k, v) :: rest else (k', v') :: assocSet rest k v

/-- The line loop of `_extract_sections`: keep a current section and a
buffer; on a header line flush the non-empty buffer (joined with newlines
and stripped) into the current section and switch; otherwise append the
line to the buffer; flush the remainder at the end. -/
def sectionsLoop : List (List Char) → String → List (List Char) →
    List (String × List Char) → List (String × List Char)
  | [], cur, buf, acc =>
    if buf.isEmpty then acc else assocSet acc cur (pyStrip (joinNL buf))
  | line :: rest, cur, buf, acc =>
    match matchLine line with
    | some name =>
      sectionsLoop rest name []
        (if buf.isEmpty then acc else assocSet acc cur (pyStrip (joinNL buf)))
    | none => sectionsLoop rest cur (buf ++ [line]) acc

/-- `PDFContentExtractor._extract_sections(text)`. -/
def extractSections (text : List Char) : List (String × List Char) :=
  sectionsLoop (splitNL text) "unknown" [] []

/-- One entry of `text_content['pages_text']`. -/
structure PageRec where
  page_number : Nat
  text : List Char
  word_count : Nat
deriving DecidableEq, Repr

/-- Python truthiness of `page.extract_text()`: `None` and `""` are falsy. -/
def truthy : Option (List Char) → Bool
  | none => false
  | some t => !t.isEmpty

/-- The page loop of `PDFContentExtractor._extract_text_content`: a page
is `none` when `extract_text()` returns `None`; only truthy pages produce
a record (with 1-based `page_number` and stripped text) and contribute
`text + '\n'` to `full_text`.  `i` counts the pages already seen. -/
def extractPagesAux : Nat → List (Option (List Char)) → List PageRec × List Char
  | _, [] => ([], [])
  | i, p :: rest =>
    let r := extractPagesAux (i + 1) rest
    match p with
    | some t =>
      if t.isEmpty then r
      else (⟨i + 1, pyStrip t, wordCount t⟩ :: r.1, t ++ '\n' :: r.2)
    | none => r

/-- `PDFProcessor._extract_with_pdfplumber`: one entry per physical page,
the stripped text for a truthy page and `""` otherwise (also on a
per-page extraction error). -/
def pdfProcessorPages (pages : List (Option (List Char))) : List (List Char) :=
  pages.map fun p =>
    match p with
    | some t => if t.isEmpty then [] else pyStrip t
    | none => []

/-- Abstraction of one PDF on disk: whether `pdfplumber.open` succeeds,
and the per-page `extract_text()` results when it does. -/
structure PdfDoc where
  name : List Char
  openable : Bool
  pages : List (Option (List Char))

/-- Input to `extract_pdf_content`: the path may be missing; otherwise a
step of the outer `try` block may raise an exception that is not caught
by any per-component handler (`outerExc`). -/
inductive FileInput where
  | missing
  | present (doc : PdfDoc) (outerExc : Option (List Char))

/-- The fields of the success-shaped result relevant to the claims
(`text_chunks` carries the chunking outcome, which can be `.fuelOut` or
`.indexError` on texts where the loop misbehaves). -/
structure SuccessRecord where
  file_name : List Char
  pages_text : List PageRec
  sections : List (String × List Char)
  full_text : List Char
  text_chunks : PyResult (List Chunk)
  extraction_success : Bool
deriving DecidableEq

/-- The failure-shaped result of `extract_pdf_content`'s `except` branch. -/
structure FailureRecord where
  file_name : List Char
  extraction_success : Bool
  error : List Char
deriving DecidableEq

/-- Result of `extract_pdf_content` when it returns a dictionary. -/
inductive ExtractOut where
  | success (r : SuccessRecord)
  | failure (r : FailureRecord)
deriving DecidableEq

/-- `_extract_text_content`: when the document cannot be opened, its
internal `except` handler swallows the error and leaves the initial empty
content; otherwise run the page loop, compute the sections from the raw
full text, and clean the full text. -/
def extractTextContentOf (doc : PdfDoc) :
    List PageRec × List (String × List Char) × List Char :=
  if doc.openable then
    let pr := extractPagesAux 0 doc.pages
    (pr.1, extractSections pr.2, cleanText pr.2)
  else ([], [], [])

/-- `PDFContentExtractor.extract_pdf_content`: a missing path returns
`None`; an exception escaping the per-component handlers produces the
failure-shaped record; otherwise a success record is built with
`extraction_success = True` (even when the document itself was
unreadable, since `_extract_text_content` swallows that error). -/
def extractPdfContent (inp : FileInput) (fuel : Nat) : Option ExtractOut :=
  match inp with
  | .missing => none
  | .present doc exc =>
    match exc with
    | some e => some (.failure ⟨doc.name, false, e⟩)
    | none =>
      let tc := extractTextContentOf doc
      some (.success ⟨doc.name, tc.1, tc.2.1, tc.2.2,
        createTextChunks tc.2.2 1000 200 fuel, true⟩)

/-- Right rotation of a 32-bit word represented as a `Nat` below `2 ^ 32`. -/
def rotr32 (n x : Nat) : Nat := x / 2 ^ n + x % 2 ^ n * 2 ^ (32 - n)

/-- SHA-256 `Σ0`. -/
def bigSigma0 (x : Nat) : Nat := rotr32 2 x ^^^ rotr32 13 x ^^^ rotr32 22 x

/-- SHA-256 `Σ1`. -/
def bigSigma1 (x : Nat) : Nat := rotr32 6 x ^^^ rotr32 11 x ^^^ rotr32 25 x

/-- SHA-256 `σ0`. -/
def smallSigma0 (x : Nat) : Nat := rotr32 7 x ^^^ rotr32 18 x ^^^ (x >>> 3)

/-- SHA-256 `σ1`. -/
def smallSigma1 (x : Nat) : Nat := rotr32 17 x ^^^ rotr32 19 x ^^^ (x >>> 10)

/-- The 64 SHA-256 round constants (decimal). -/
def sha256K : List Nat :=
  [1116352408, 1899447441, 3049323471, 3921009573,
   961987163, 1508970993, 2453635748, 2870763221,
   3624381080, 310598401, 607225278, 1426881987,
   1925078388, 2162078206, 2614888103, 3248222580,
   3835390401, 4022224774, 264347078, 604807628,
   770255983, 1249150122, 1555081692, 1996064986,
   2554220882, 2821834349, 2952996808, 3210313671,
   3336571891, 3584528711, 113926993, 338241895,
   666307205, 773529912, 1294757372, 1396182291,
   1695183700, 1986661051, 2177026350, 2456956037,
   2730485921, 2820302411, 3259730800, 3345764771,
   3516065817, 3600352804, 4094571909, 275423344,
   430227734, 506948616, 659060556, 883997877,
   958139571, 1322822218, 1537002063, 1747873779,
   1955562222, 2024104815, 2227730452, 2361852424,
   2428436474, 2756734187, 3204031479, 3329325298]

/-- The eight 32-bit hash words carried through SHA-256 compression. -/
structure Hash8 where
  w0 : Nat
  w1 : Nat
  w2 : Nat
  w3 : Nat
  w4 : Nat
  w5 : Nat
  w6 : Nat
  w7 : Nat
deriving DecidableEq, Repr

/-- The SHA-256 initial hash value (decimal). -/
def sha256Init : Hash8 :=
  ⟨1779033703, 3144134277, 1013904242, 2773480762,
   1359893119, 2600822924, 528734635, 1541459225⟩

/-- SHA-256 padding: append `0x80`, zeros, and the 64-bit big-endian bit
length, reaching a multiple of 64 bytes. -/
def sha256Pad (msg : List Nat) : List Nat :=
  let len := msg.length
  let k := (64 - (len + 9) % 64) % 64
  msg ++ 0x80 :: (List.replicate k 0 ++
    (List.range 8).map fun i => ((8 * len) >>> (8 * (7 - i))) % 256)

/-- The sixteen big-endian 32-bit words of one 64-byte block. -/
def wordsOfBlock (b : List Nat) : List Nat :=
  (List.range 16).map fun j =>
    b.getD (4 * j) 0 * 2 ^ 24 + b.getD (4 * j + 1) 0 * 2 ^ 16 +
    b.getD (4 * j + 2) 0 * 2 ^ 8 + b.getD (4 * j + 3) 0

/-- Append the next word of the SHA-256 message schedule. -/
def scheduleStep (w : List Nat) : List Nat :=
  let l := w.length
  w ++ [(smallSigma1 (w.getD (l - 2) 0) + w.getD (l - 7) 0 +
         smallSigma0 (w.getD (l - 15) 0) + w.getD (l - 16) 0) % 2 ^ 32]

/-- Extend sixteen message words to the 64-word schedule. -/
def schedule (w16 : List Nat) : List Nat :=
  (List.range 48).foldl (fun w _ => scheduleStep w) w16

/-- One SHA-256 compression round. -/
def sha256Round (st : Hash8) (ki wi : Nat) : Hash8 :=
  let ch := (st.w4 &&& st.w5) ^^^ ((st.w4 ^^^ 0xffffffff) &&& st.w6)
  let maj := (st.w0 &&& st.w1) ^^^ (st.w0 &&& st.w2) ^^^ (st.w1 &&& st.w2)
  let t1 := (st.w7 + bigSigma1 st.w4 + ch + ki + wi) % 2 ^ 32
  let t2 := (bigSigma0 st.w0 + maj) % 2 ^ 32
  ⟨(t1 + t2) % 2 ^ 32, st.w0, st.w1, st.w2,
   (st.w3 + t1) % 2 ^ 32, st.w4, st.w5, st.w6⟩

/-- Process one 64-byte block. -/
def sha256Block (H : Hash8) (block : List Nat) : Hash8 :=
  let w := schedule (wordsOfBlock block)
  let st := (List.zip sha256K w).foldl (fun s p => sha256Round s p.1 p.2) H
  ⟨(H.w0 + st.w0) % 2 ^ 32, (H.w1 + st.w1) % 2 ^ 32,
   (H.w2 + st.w2) % 2 ^ 32, (H.w3 + st.w3) % 2 ^ 32,
   (H.w4 + st.w4) % 2 ^ 32, (H.w5 + st.w5) % 2 ^ 32,
   (H.w6 + st.w6) % 2 ^ 32, (H.w7 + st.w7) % 2 ^ 32⟩

/-- Cut a padded message into its 64-byte blocks. -/
def sha256Blocks (padded : List Nat) : List (List Nat) :=
  (List.range (padded.length / 64)).map fun i => (padded.drop (64 * i)).take 64

/-- Lowercase hexadecimal digit. -/
def hexDigit (n : Nat) : Char :=
  if n < 10 then Char.ofNat ('0'.toNat + n) else Char.ofNat ('a'.toNat + n - 10)

/-- Eight lowercase hex digits of a 32-bit word, most significant first. -/
def hexWord (w : Nat) : List Char :=
  (List.range 8).map fun i => hexDigit ((w >>> (28 - 4 * i)) % 16)

/-- `PDFGridFSStorage._calculate_file_hash`: the SHA-256 hex digest of the
file bytes (the source streams the file in 4096-byte blocks into one
hash object, which digests the identical byte sequence). -/
def sha256Hex (msg : List Nat) : List Char :=
  let F := (sha256Blocks (sha256Pad msg)).foldl sha256Block sha256Init
  hexWord F.w0 ++ hexWord F.w1 ++ hexWord F.w2 ++ hexWord F.w3 ++
  hexWord F.w4 ++ hexWord F.w5 ++ hexWord F.w6 ++ hexWord F.w7

/-- One blob stored in the GridFS `pdf_files` collection, with the
`metadata.file_hash` field used for deduplication. -/
structure StoredFile where
  fid : Nat
  file_hash : List Char
  content : List Nat
deriving DecidableEq, Repr

/-- The GridFS collection state: stored blobs in insertion order, and the
next fresh blob id. -/
structure GridFSState where
  files : List StoredFile
  nextId : Nat
deriving DecidableEq, Repr

/-- `fs.find_one({"metadata.file_hash": file_hash})`. -/
def findOneByHash (fs : GridFSState) (h : List Char) : Option StoredFile :=
  fs.files.find? fun f => f.file_hash == h

/-- `PDFGridFSStorage.store_pdf_file` on an existing file: hash the bytes,
return the existing blob's id if one with the same hash is already
stored, otherwise put a new blob.  (The source returns `None` for a
missing path or on a storage exception; those branches do not touch the
store.) -/
def storePdfFile (fs : GridFSState) (content : List Nat) :
    Option Nat × GridFSState :=
  let h := sha256Hex content
  match findOneByHash fs h with
  | some ex => (some ex.fid, fs)
  | none =>
    (some fs.nextId, ⟨fs.files ++ [⟨fs.nextId, h, content⟩], fs.nextId + 1⟩)

/-- The coverage property claimed by the specification for the chunk
spans: the union of the half-open intervals `[start_char, end_char)` is
exactly `[0, len)`. -/
def spansExactlyCover (chunks : List Chunk) (len : Int) : Prop :=
  ∀ p : Int, (∃ c ∈ chunks, c.start_char ≤ p ∧ p < c.end_char) ↔ 0 ≤ p ∧ p < len

/-- The texts of the pages that pass the `if page_text:` truthiness test,
in page order. -/
def truthyTexts (pages : List (Option (List Char))) : List (List Char) :=
  pages.filterMap fun p =>
    match p with
    | some t => if t.isEmpty then none else some t
    | none => none

/-- The line sequence reconstructed by splitting each section value back
into lines and concatenating, in encounter order. -/
def sectionLines (m : List (String × List Char)) : List (List Char) :=
  (m.map fun p => splitNL p.2).flatten

/-- The chunk list `_create_text_chunks` produces for seven `a` characters
with `chunk_size = 5`, `overlap = 2`. -/
def c1Chunks : List Chunk :=
  [⟨0, 5, "aaaaa".toList, 1, 1⟩, ⟨3, 8, "aaaa".toList, 2, 1⟩,
   ⟨6, 11, "a".toList, 3, 1⟩]

/-- The seven-line sample text of the section-segmentation scenario: an
`Abstract` header line, three body lines, a `References` header line, two
body lines. -/
def c3Text : List Char :=
  "Abstract\nbody one\nbody two\nbody three\nReferences\ntail one\ntail two".toList

/-- A sample text whose header lines (`methodology`, `bibliography`)
match two distinct sections. -/
def c4Text : List Char :=
  "intro words\nmethodology\nalpha\nbeta\nbibliography\ngamma".toList

/-- The combined effect on one character of the two dash replacements of
`_clean_text` (`–` and `—` both become `-`; the two quote replacements
substitute an ASCII quote by itself and change nothing). -/
def dashNorm (c : Char) : Char :=
  if c = '–' then '-' else if c = '—' then '-' else c

/-! ### Helper lemmas on the string primitives -/

theorem dropWhile_eq_self_of_false {p : Char → Bool} :
    ∀ l : List Char, (∀ c ∈ l, p c = false) → l.dropWhile p = l
  | [], _ => rfl
  | c :: cs, h => by
    rw [List.dropWhile_cons, h c (List.mem_cons_self c cs)]
    simp

theorem pyStrip_eq_self_of_no_space (l : List Char)
    (h : ∀ c ∈ l, isSpace c = false) : pyStrip l = l := by
  unfold pyStrip stripLeft
  rw [dropWhile_eq_self_of_false l h,
      dropWhile_eq_self_of_false l.reverse (fun c hc => h c (List.mem_reverse.mp hc)),
      List.reverse_reverse]

theorem pyStrip_eq_self_of_ends (l : List Char)
    (h1 : ∀ c ∈ l.head?, isSpace c = false)
    (h2 : ∀ c ∈ l.getLast?, isSpace c = false) : pyStrip l = l := by
  have e1 : l.dropWhile (fun c => isSpace c) = l := by
    cases l with
    | nil => rfl
    | cons c cs =>
      rw [List.dropWhile_cons, h1 c rfl]
      simp
  have e2 : l.reverse.dropWhile (fun c => isSpace c) = l.reverse := by
    cases hr : l.reverse with
    | nil => rfl
    | cons c cs =>
      have hc : l.getLast? = some c := by rw [← List.head?_reverse, hr]; rfl
      rw [List.dropWhile_cons, h2 c hc]
      simp
  unfold pyStrip stripLeft
  rw [e1, e2, List.reverse_reverse]

theorem joinSep_cons_cons (s : Char) (w v : List Char) (vs : List (List Char)) :
    joinSep s (w :: v :: vs) = w ++ s :: joinSep s (v :: vs) := rfl

theorem joinSep_head? (s : Char) (w : List Char) (ws : List (List Char))
    (hw : w ≠ []) : (joinSep s (w :: ws)).head? = w.head? := by
  cases ws with
  | nil => rfl
  | cons v vs =>
    rw [joinSep_cons_cons]
    cases w with
    | nil => exact absurd rfl hw
    | cons c cs => rfl

theorem joinSep_ne_nil (s : Char) (w : List Char) (ws : List (List Char))
    (hw : w ≠ []) : joinSep s (w :: ws) ≠ [] := by
  cases ws with
  | nil => exact hw
  | cons v vs =>
    rw [joinSep_cons_cons]
    cases w with
    | nil => exact absurd rfl hw
    | cons c cs => simp

theorem joinSep_getLast? (s : Char) :
    ∀ (w : List Char) (ws : List (List Char)) (v : List Char),
      (∀ u ∈ ws, u ≠ []) → (w :: ws).getLast? = some v →
      (joinSep s (w :: ws)).getLast? = v.getLast?
  | w, [], v, _, hv => by
    simp only [List.getLast?_singleton, Option.some_inj] at hv
    subst hv; rfl
  | w, u :: us, v, hne, hv => by
    rw [List.getLast?_cons_cons] at hv
    have hrec := joinSep_getLast? s u us v
      (fun x hx => hne x (List.mem_cons_of_mem _ hx)) hv
    have hv_ne : v ≠ [] := hne v (List.mem_of_getLast?_eq_some hv)
    have hJ : joinSep s (u :: us) ≠ [] :=
      joinSep_ne_nil s u us (hne u (List.mem_cons_self u us))
    rw [joinSep_cons_cons, List.getLast?_append]
    cases hX : joinSep s (u :: us) with
    | nil => exact absurd hX hJ
    | cons x xs =>
      rw [hX] at hrec
      rw [List.getLast?_cons_cons, hrec]
      have : v.getLast?.isSome := by
        cases v with
        | nil => exact absurd rfl hv_ne
        | cons y ys => simp
      obtain ⟨c, hc⟩ := Option.isSome_iff_exists.mp this
      rw [hc]
      rfl

theorem mem_joinSep (s : Char) :
    ∀ (ws : List (List Char)) (c : Char), c ∈ joinSep s ws →
      c = s ∨ ∃ w ∈ ws, c ∈ w
  | [], c, h => by simp [joinSep] at h
  | [w], c, h => Or.inr ⟨w, by simp, h⟩
  | w :: v :: vs, c, h => by
    rw [joinSep_cons_cons] at h
    rcases List.mem_append.mp h with hw | hrest
    · exact Or.inr ⟨w, by simp, hw⟩
    · rcases List.mem_cons.mp hrest with hs | hh
      · exact Or.inl hs
      · rcases mem_joinSep s (v :: vs) c hh with h1 | ⟨u, hu, hc⟩
        · exact Or.inl h1
        · exact Or.inr ⟨u, List.mem_cons_of_mem _ hu, hc⟩

theorem map_joinSep (f : Char → Char) (s : Char) (hf : f s = s) :
    ∀ ws : List (List Char), (joinSep s ws).map f = joinSep s (ws.map (List.map f))
  | [] => rfl
  | [w] => rfl
  | w :: v :: vs => by
    rw [joinSep_cons_cons, List.map_append, List.map_cons, hf,
        map_joinSep f s hf (v :: vs)]
    rfl

theorem splitNL_ne_nil : ∀ t : List Char, splitNL t ≠ []
  | [] => by simp [splitNL]
  | c :: cs => by
    by_cases hc : c = '\n'
    · simp [splitNL, hc]
    · simp only [splitNL, if_neg hc]
      cases h : splitNL cs with
      | nil => simp
      | cons w ws => simp

theorem splitNL_no_newline : ∀ (t l : List Char), l ∈ splitNL t → '\n' ∉ l
  | [], l, hl => by
    simp only [splitNL, List.mem_singleton] at hl
    subst hl; simp
  | c :: cs, l, hl => by
    by_cases hc : c = '\n'
    · subst hc
      simp only [splitNL, if_pos rfl] at hl
      rcases List.mem_cons.mp hl with h1 | h2
      · subst h1; simp
      · exact splitNL_no_newline cs l h2
    · simp only [splitNL, if_neg hc] at hl
      cases h : splitNL cs with
      | nil => exact absurd h (splitNL_ne_nil cs)
      | cons w ws =>
        rw [h] at hl
        rcases List.mem_cons.mp hl with h1 | h2
        · subst h1
          intro hmem
          rcases List.mem_cons.mp hmem with h3 | h4
          · exact hc h3.symm
          · exact splitNL_no_newline cs w
              (by rw [h]; exact List.mem_cons_self w ws) h4
        · exact splitNL_no_newline cs l (by rw [h]; exact List.mem_cons_of_mem _ h2)

theorem splitNL_of_no_newline : ∀ l : List Char, '\n' ∉ l → splitNL l = [l]
  | [], _ => rfl
  | c :: cs, h => by
    have hc : ¬ c = '\n' := by
      intro hh
      exact h (by rw [hh]; exact List.mem_cons_self _ _)
    simp only [splitNL, if_neg hc]
    rw [splitNL_of_no_newline cs (fun hh => h (List.mem_cons_of_mem c hh))]

theorem splitNL_append_newline : ∀ (w r : List Char), '\n' ∉ w →
    splitNL (w ++ '\n' :: r) = w :: splitNL r
  | [], r, _ => by simp [splitNL]
  | c :: cs, r, h => by
    have hc : ¬ c = '\n' := by
      intro hh
      exact h (by rw [hh]; exact List.mem_cons_self _ _)
    simp only [List.cons_append, splitNL, if_neg hc, List.append_eq]
    rw [splitNL_append_newline cs r (fun hh => h (List.mem_cons_of_mem c hh))]

theorem joinNL_eq (ws : List (List Char)) : joinNL ws = joinSep '\n' ws := rfl

theorem splitNL_joinNL : ∀ ws : List (List Char), ws ≠ [] →
    (∀ w ∈ ws, '\n' ∉ w) → splitNL (joinSep '\n' ws) = ws
  | [], h, _ => absurd rfl h
  | [w], _, hw => splitNL_of_no_newline w (hw w (by simp))
  | w :: v :: vs, _, hw => by
    rw [joinSep_cons_cons, splitNL_append_newline w _ (hw w (by simp))]
    rw [splitNL_joinNL (v :: vs) (by simp)
      (fun u hu => hw u (List.mem_cons_of_mem _ hu))]

theorem map_eq_self_of_fixed {f : Char → Char} :
    ∀ l : List Char, (∀ c ∈ l, f c = c) → l.map f = l
  | [], _ => rfl
  | c :: cs, h => by
    rw [List.map_cons, h c (List.mem_cons_self c cs),
        map_eq_self_of_fixed cs (fun x hx => h x (List.mem_cons_of_mem _ hx))]

/-! ### Helper lemmas on the chunker -/

theorem pyIndex_mem (t : List Char) (i : Int) (c : Char)
    (h : pyIndex t i = some c) : c ∈ t := by
  unfold pyIndex at h
  split at h
  · obtain ⟨hlt, he⟩ := List.getElem?_eq_some.mp h
    exact he ▸ List.getElem_mem hlt
  · split at h
    · obtain ⟨hlt, he⟩ := List.getElem?_eq_some.mp h
      exact he ▸ List.getElem_mem hlt
    · cases h

theorem pyIndex_of_lt (t : List Char) (i : Int) (h0 : 0 ≤ i)
    (hlt : i < (t.length : Int)) : ∃ c, pyIndex t i = some c := by
  unfold pyIndex
  rw [if_pos h0]
  have hn : i.toNat < t.length := by omega
  exact ⟨t.get ⟨i.toNat, hn⟩, List.getElem?_eq_getElem hn⟩

theorem findTermDown_none_of_plain (t : List Char)
    (hplain : ∀ c ∈ t, isTerm c = false) (m : Int) (hm : 0 ≤ m) :
    ∀ (fuel : Nat) (i : Int), i < (t.length : Int) →
      findTermDown t m fuel i = .ok none := by
  intro fuel
  induction fuel with
  | zero => intro i _; rfl
  | succ n ih =>
    intro i hi
    simp only [findTermDown]
    split
    · rfl
    · obtain ⟨c, hc⟩ := pyIndex_of_lt t i (by omega) hi
      simp only [hc, hplain c (pyIndex_mem t i c hc), Bool.false_eq_true,
        if_false]
      exact ih (i - 1) (by omega)

theorem chunkEnd_of_plain (t : List Char) (cs start : Int)
    (hplain : ∀ c ∈ t, isTerm c = false) (h0 : 0 ≤ start) :
    chunkEnd t cs start = .ok (start + cs) := by
  simp only [chunkEnd]
  split
  · rename_i hlt
    rw [findTermDown_none_of_plain t hplain _ (by omega) _ _ hlt]
  · rfl

theorem pySlice_mem (t : List Char) (a b : Int) {c : Char}
    (h : c ∈ pySlice t a b) : c ∈ t :=
  List.mem_of_mem_take (List.mem_of_mem_drop h)

theorem pySlice_ne_nil (t : List Char) (a b : Int)
    (ha0 : 0 ≤ a) (halen : a < (t.length : Int)) (hab : a < b) :
    pySlice t a b ≠ [] := by
  have hlen : 0 < (pySlice t a b).length := by
    unfold pySlice sliceBound
    rw [if_neg (by omega), if_neg (by omega)]
    simp only [List.length_drop, List.length_take]
    omega
  intro hnil
  rw [hnil] at hlen
  simp at hlen

theorem chunkLoop_of_ge (t : List Char) (cs ov : Int) (fuel : Nat)
    (start : Int) (idx : Nat) (h : ¬ start < (t.length : Int)) (l : List Chunk)
    (hrun : chunkLoop t cs ov fuel start idx = .ok l) : l = [] := by
  cases fuel with
  | zero => cases hrun
  | succ n =>
    simp only [chunkLoop, if_neg h] at hrun
    injection hrun with hh
    exact hh.symm

theorem PyResult.map_fuelOut {α β : Type} (f : α → β) :
    PyResult.map f .fuelOut = .fuelOut := rfl

theorem PyResult.map_indexError {α β : Type} (f : α → β) :
    PyResult.map f .indexError = .indexError := rfl

theorem PyResult.map_ok {α β : Type} (f : α → β) (a : α) :
    PyResult.map f (.ok a) = .ok (f a) := rfl

theorem chunkLoop_texts_eq_splitLoop (t : List Char) (cs ov : Int) :
    ∀ (fuel : Nat) (start : Int) (idx : Nat),
      (chunkLoop t cs ov fuel start idx).map (fun l => l.map Chunk.text) =
        splitLoop t cs ov fuel start := by
  intro fuel
  induction fuel with
  | zero => intro start idx; rfl
  | succ n ih =>
    intro start idx
    simp only [chunkLoop, splitLoop]
    split
    · cases hce : chunkEnd t cs start with
      | fuelOut => rfl
      | indexError => rfl
      | ok e =>
        dsimp only
        split
        · rename_i hct
          rw [ih]
          cases hsp : splitLoop t cs ov n (e - ov) with
          | fuelOut => rfl
          | indexError => rfl
          | ok rest => simp [hct]
        · rename_i hct
          have hs := ih (e - ov) (idx + 1)
          cases hc : chunkLoop t cs ov n (e - ov) (idx + 1) with
          | fuelOut =>
            rw [hc, PyResult.map_fuelOut] at hs
            rw [← hs]
            rfl
          | indexError =>
            rw [hc, PyResult.map_indexError] at hs
            rw [← hs]
            rfl
          | ok rest =>
            rw [hc, PyResult.map_ok] at hs
            rw [← hs]
            rfl
    · rfl

/-! ### Claim theorems -/

/-- Claim C5: for every text with `len(T) ≤ chunk_size` the chunker
returns exactly one chunk whose text is `T` unmodified, with
`chunk_index 1`, `start_char 0` and `end_char len(T)`, including `T = ""`. -/
theorem C5_short_text_single_chunk (t : List Char) (cs ov : Int) (fuel : Nat)
    (h : (t.length : Int) ≤ cs) :
    createTextChunks t cs ov fuel =
      .ok [⟨0, (t.length : Int), t, 1, wordCount t⟩] := by
  simp only [createTextChunks, if_pos (Or.inr h)]

/-- Witness for C5 at `T = ""` and `T = "abc def"` with the default
parameters. -/
theorem C5_short_text_single_chunk_witness :
    ((("" : String).toList.length : Int) ≤ 1000 ∧
      createTextChunks "".toList 1000 200 5 = .ok [⟨0, 0, [], 1, 0⟩]) ∧
    (("abc def".toList.length : Int) ≤ 1000 ∧
      createTextChunks "abc def".toList 1000 200 5 =
        .ok [⟨0, 7, "abc def".toList, 1, 2⟩]) :=
  ⟨⟨by decide, C5_short_text_single_chunk "".toList 1000 200 5 (by decide)⟩,
   ⟨by decide, C5_short_text_single_chunk "abc def".toList 1000 200 5 (by decide)⟩⟩

set_option maxRecDepth 100000 in
/-- Claim C2 (code bug): the chunkers perform no parameter validation at
all.  With `chunk_size = 100`, `overlap = 150` a short text still yields
a chunk (no `ConfigurationError`, nothing rejected).  On a 200-character
text the advance `start = end - overlap` is non-positive: `start` walks
0, -50, -100, -150, -200, -250, three chunks are emitted along the way,
and the sixth iteration's backward scan evaluates `text[-201]`, out of
range even after negative-index wrapping, so the call terminates abruptly
with an uncaught `IndexError` instead of rejecting the parameters up
front (ten fuel steps more than cover the six iterations reached). -/
theorem C2_no_validation :
    createTextChunks "ab".toList 100 150 1 =
      .ok [⟨0, 2, "ab".toList, 1, 1⟩] ∧
    createTextChunks (List.replicate 200 'x') 100 150 10 =
      .indexError := by
  constructor
  · decide
  · decide

/-- Claim C9: the content digest is a fixed-length (64 hex characters)
pure function of the bytes, and `store_pdf_file` is idempotent: storing
byte-identical content into the store a second time returns the same blob
id and leaves the store unchanged (no new blob is written). -/
theorem C9_digest_dedup (b : List Nat) (fs : GridFSState) :
    (sha256Hex b).length = 64 ∧
    storePdfFile (storePdfFile fs b).2 b = storePdfFile fs b := by
  constructor
  · simp [sha256Hex, hexWord]
  · cases hf : findOneByHash fs (sha256Hex b) with
    | some ex => simp [storePdfFile, hf]
    | none =>
      have h2 : findOneByHash
          ⟨fs.files ++ [⟨fs.nextId, sha256Hex b, b⟩], fs.nextId + 1⟩
          (sha256Hex b) = some ⟨fs.nextId, sha256Hex b, b⟩ := by
        unfold findOneByHash at hf ⊢
        simp only [List.find?_append, hf]
        simp
      simp [storePdfFile, hf, h2]

/-- Claim C10 is false as stated: on the empty text with a negative
`chunk_size`, `_create_text_chunks` emits its single whole-text chunk
(the `not text` disjunct) while `split_into_chunks` runs its loop zero
times and returns no chunk at all. -/
theorem C10_counterexample :
    (createTextChunks [] (-1) 0 5).map (fun l => l.map Chunk.text) ≠
      splitIntoChunks [] (-1) 0 5 := by decide

/-- Claim C10 (amended): whenever `chunk_size ≥ 0` or the text is
non-empty, the chunk strings of `split_into_chunks` equal the `text`
fields of the records of `_create_text_chunks`, for every fuel. -/
theorem C10_amended_texts_equal (t : List Char) (cs ov : Int) (fuel : Nat)
    (h : 0 ≤ cs ∨ t ≠ []) :
    (createTextChunks t cs ov fuel).map (fun l => l.map Chunk.text) =
      splitIntoChunks t cs ov fuel := by
  by_cases hshort : (t.length : Int) ≤ cs
  · simp only [createTextChunks, splitIntoChunks, if_pos (Or.inr hshort),
      if_pos hshort]
    rfl
  · have hcond : ¬(t.isEmpty = true ∨ (t.length : Int) ≤ cs) := by
      rintro (hempty | hle)
      · rw [List.isEmpty_iff] at hempty
        rcases h with h0 | hne'
        · subst hempty
          exact hshort (by simpa using h0)
        · exact hne' hempty
      · exact hshort hle
    simp only [createTextChunks, splitIntoChunks, if_neg hcond, if_neg hshort]
    exact chunkLoop_texts_eq_splitLoop t cs ov fuel 0 1

/-- Witness for the amended C10 on a concrete text. -/
theorem C10_amended_texts_equal_witness :
    (0 ≤ (1 : Int) ∨ "ab".toList ≠ []) ∧
    (createTextChunks "ab".toList 1 0 5).map (fun l => l.map Chunk.text) =
      splitIntoChunks "ab".toList 1 0 5 :=
  ⟨Or.inl (by decide), C10_amended_texts_equal "ab".toList 1 0 5 (Or.inl (by decide))⟩

/-- Claim C1 is false as stated: for seven `a` characters with
`chunk_size 5`, `overlap 2` (valid parameters, text longer than the chunk
size) the produced spans are `[0,5)`, `[3,8)`, `[6,11)`, whose union is
`[0,11)`, not `[0,7)`: the recorded `end_char` values overrun the text
length, because the loop records `end = start + chunk_size` without
clamping to `len(text)`. -/
theorem C1_counterexample :
    createTextChunks "aaaaaaa".toList 5 2 50 = .ok c1Chunks ∧
    ¬ spansExactlyCover c1Chunks 7 := by
  refine ⟨by decide, fun h => ?_⟩
  have h10 := (h 10).mp ⟨⟨6, 11, "a".toList, 3, 1⟩, by decide, by decide⟩
  omega

/-- Claim C8 is false as stated: a missing input path makes
`extract_pdf_content` return `None` (the guard before the `try` block),
not a failure-shaped record. -/
theorem C8_counterexample : extractPdfContent FileInput.missing 5 = none := rfl

/-- Claim C8 (amended): a missing path returns `None`; an exception that
escapes the per-component handlers produces exactly the failure-shaped
record `{file identity, timestamp, extraction_success: false, error}`;
and an unreadable document does not produce a failure record at all —
`_extract_text_content` swallows the error internally and a success
record with empty content and `extraction_success = true` is returned. -/
theorem C8_amended_result_shapes (doc : PdfDoc) (e : List Char) (fuel : Nat)
    (hopen : doc.openable = false) :
    extractPdfContent (FileInput.present doc (some e)) fuel =
      some (ExtractOut.failure ⟨doc.name, false, e⟩) ∧
    extractPdfContent (FileInput.present doc none) fuel =
      some (ExtractOut.success
        ⟨doc.name, [], [], [], .ok [⟨0, 0, [], 1, 0⟩], true⟩) := by
  obtain ⟨nm, op, pg⟩ := doc
  subst hopen
  exact ⟨rfl, rfl⟩

/-- Witness for the amended C8 on an unreadable one-page document. -/
theorem C8_amended_result_shapes_witness :
    ((⟨"bad.pdf".toList, false, []⟩ : PdfDoc).openable = false) ∧
    (extractPdfContent
        (FileInput.present ⟨"bad.pdf".toList, false, []⟩ (some "err".toList)) 3 =
      some (ExtractOut.failure ⟨"bad.pdf".toList, false, "err".toList⟩) ∧
     extractPdfContent (FileInput.present ⟨"bad.pdf".toList, false, []⟩ none) 3 =
      some (ExtractOut.success
        ⟨"bad.pdf".toList, [], [], [], .ok [⟨0, 0, [], 1, 0⟩], true⟩)) :=
  ⟨rfl, C8_amended_result_shapes _ _ 3 rfl⟩

/-- Claim C3 (code bug): on the seven-line scenario text the segmenter
returns the whole text under `unknown` and no `abstract` section at all.
The `pattern.split('|')` of `_extract_sections` leaves the regex
decorations glued to the keywords (`(?i)(abstract`, `summary)`), so the
lines `Abstract` and `References` match no catalog entry. -/
theorem C3_sections_fall_to_unknown :
    extractSections c3Text = [("unknown", c3Text)] ∧
    (extractSections c3Text).lookup "abstract" = none := by decide

/-- Claim C6 is false as stated: cleaning `"a \x00 b"` yields `"a  b"`
(the null is removed after whitespace collapsing, leaving two adjacent
spaces), and cleaning again collapses them to `"a b"`. -/
theorem C6_counterexample :
    cleanText (cleanText "a \x00 b".toList) ≠ cleanText "a \x00 b".toList := by
  decide

/-- Claim C7 is false as stated: on a two-page document whose second page
yields no text, `_extract_text_content` produces one page record, not
two — pages without text are skipped, not recorded as empty records. -/
theorem C7_counterexample :
    ¬ ((extractPagesAux 0 [some "a".toList, none]).1.length = 2 ∧
       (extractPagesAux 0 [some "a".toList, none]).2 =
         joinNL ["a".toList, []]) := by decide

/-- Claim C4 is false as stated: segmenting `"methodology\nx"` yields the
single section `methods ↦ "x"`; the header line `methodology` itself is
dropped, so concatenating the section values cannot reconstruct the
original line sequence. -/
theorem C4_counterexample :
    sectionLines (extractSections "methodology\nx".toList) ≠
      splitNL "methodology\nx".toList := by decide

theorem extractPagesAux_cons_none (i : Nat) (rest : List (Option (List Char))) :
    extractPagesAux i (none :: rest) = extractPagesAux (i + 1) rest := rfl

theorem extractPagesAux_cons_empty (i : Nat) (t : List Char)
    (rest : List (Option (List Char))) (ht : t.isEmpty = true) :
    extractPagesAux i (some t :: rest) = extractPagesAux (i + 1) rest := by
  simp [extractPagesAux, ht]

theorem extractPagesAux_cons_some (i : Nat) (t : List Char)
    (rest : List (Option (List Char))) (ht : t.isEmpty = false) :
    extractPagesAux i (some t :: rest) =
      (⟨i + 1, pyStrip t, wordCount t⟩ :: (extractPagesAux (i + 1) rest).1,
       t ++ '\n' :: (extractPagesAux (i + 1) rest).2) := by
  simp [extractPagesAux, ht]

theorem truthyTexts_cons_none (rest : List (Option (List Char))) :
    truthyTexts (none :: rest) = truthyTexts rest := rfl

theorem truthyTexts_cons_empty (t : List Char)
    (rest : List (Option (List Char))) (ht : t.isEmpty = true) :
    truthyTexts (some t :: rest) = truthyTexts rest := by
  have h : t = [] := List.isEmpty_iff.mp ht
  subst h
  rfl

theorem truthyTexts_cons_some (t : List Char)
    (rest : List (Option (List Char))) (ht : t.isEmpty = false) :
    truthyTexts (some t :: rest) = t :: truthyTexts rest := by
  have hne : t ≠ [] := by simpa using ht
  simp [truthyTexts, List.filterMap_cons, ht, hne]

theorem extractPagesAux_spec : ∀ (pages : List (Option (List Char))) (i : Nat),
    (extractPagesAux i pages).1.map PageRec.text = (truthyTexts pages).map pyStrip ∧
    (extractPagesAux i pages).2 =
      (truthyTexts pages).foldr (fun t acc => t ++ '\n' :: acc) [] ∧
    (∀ r ∈ (extractPagesAux i pages).1, i < r.page_number) ∧
    List.Chain' (fun a b => a.page_number < b.page_number) (extractPagesAux i pages).1
  | [], _ => ⟨rfl, rfl, by simp [extractPagesAux], by simp [extractPagesAux]⟩
  | p :: rest, i => by
    obtain ⟨h1, h2, h3, h4⟩ := extractPagesAux_spec rest (i + 1)
    cases p with
    | none =>
      rw [extractPagesAux_cons_none, truthyTexts_cons_none]
      exact ⟨h1, h2, fun r hr => Nat.lt_of_succ_lt (h3 r hr), h4⟩
    | some t =>
      cases ht : t.isEmpty with
      | true =>
        rw [extractPagesAux_cons_empty i t rest ht, truthyTexts_cons_empty t rest ht]
        exact ⟨h1, h2, fun r hr => Nat.lt_of_succ_lt (h3 r hr), h4⟩
      | false =>
        rw [extractPagesAux_cons_some i t rest ht, truthyTexts_cons_some t rest ht]
        refine ⟨?_, ?_, ?_, ?_⟩
        · simp only [List.map_cons, h1]
        · simp only [List.foldr_cons, h2]
        · intro r hr
          rcases List.mem_cons.mp hr with h | h
          · subst h; exact Nat.lt_succ_self i
          · exact Nat.lt_of_succ_lt (h3 r h)
        · rw [List.chain'_cons']
          exact ⟨fun y hy => h3 y (List.mem_of_mem_head? hy), h4⟩

/-- Claim C7 (amended): the extractor yields one record per page with
extractable text (empty pages are skipped), with stripped text, strictly
increasing page numbers, and a full text that is the concatenation of
each such page followed by a newline; the pdf_processor variant keeps one
entry per physical page. -/
theorem C7_amended_pages (pages : List (Option (List Char))) :
    (extractPagesAux 0 pages).1.map PageRec.text = (truthyTexts pages).map pyStrip ∧
    (extractPagesAux 0 pages).2 =
      (truthyTexts pages).foldr (fun t acc => t ++ '\n' :: acc) [] ∧
    List.Chain' (fun a b => a.page_number < b.page_number)
      (extractPagesAux 0 pages).1 ∧
    (pdfProcessorPages pages).length = pages.length := by
  obtain ⟨h1, h2, _, h4⟩ := extractPagesAux_spec pages 0
  exact ⟨h1, h2, h4, by simp [pdfProcessorPages]⟩

theorem chunkLoop_plain_spans (t : List Char) (cs ov : Int)
    (hcs : 0 < cs) (hov0 : 0 ≤ ov) (hov : ov < cs)
    (hterm : ∀ c ∈ t, isTerm c = false)
    (hspace : ∀ c ∈ t, isSpace c = false) :
    ∀ (fuel : Nat) (start : Int) (idx : Nat) (l : List Chunk),
      0 ≤ start → start < (t.length : Int) →
      chunkLoop t cs ov fuel start idx = .ok l →
      (∃ c0 ∈ l.head?, c0.start_char = start) ∧
      (∀ c ∈ l, c.end_char = c.start_char + cs) ∧
      List.Chain' (fun a b => b.start_char = a.end_char - ov) l ∧
      ∃ cl ∈ l.getLast?, (t.length : Int) ≤ cl.end_char ∧
        ∀ p : Int, (∃ c ∈ l, c.start_char ≤ p ∧ p < c.end_char) ↔
          start ≤ p ∧ p < cl.end_char := by
  intro fuel
  induction fuel with
  | zero => intro start idx l _ _ h; cases h
  | succ n ih =>
    intro start idx l h0 hlt hrun
    simp only [chunkLoop, if_pos hlt,
      chunkEnd_of_plain t cs start hterm h0] at hrun
    have hslice : pySlice t start (start + cs) ≠ [] :=
      pySlice_ne_nil t start (start + cs) h0 hlt (by omega)
    have hstrip : pyStrip (pySlice t start (start + cs)) =
        pySlice t start (start + cs) :=
      pyStrip_eq_self_of_no_space _ (fun c hc => hspace c (pySlice_mem t _ _ hc))
    rw [hstrip, if_neg (by simp [List.isEmpty_eq_false.mpr hslice])] at hrun
    cases hrec : chunkLoop t cs ov n (start + cs - ov) (idx + 1) with
    | fuelOut => rw [hrec] at hrun; cases hrun
    | indexError => rw [hrec] at hrun; cases hrun
    | ok rest =>
      rw [hrec] at hrun
      injection hrun with hl
      subst hl
      by_cases hstop : start + cs - ov < (t.length : Int)
      · obtain ⟨⟨c0, hc0head, hc0start⟩, hends, hchain, cl, hcllast, hcllen, hunion⟩ :=
          ih (start + cs - ov) (idx + 1) rest (by omega) hstop hrec
        have hrest_ne : rest ≠ [] := by
          intro h
          subst h
          exact Option.not_mem_none c0 hc0head
        obtain ⟨r, rs, rfl⟩ := List.exists_cons_of_ne_nil hrest_ne
        have hr0 : c0 = r := by
          rw [List.head?_cons] at hc0head
          exact (Option.mem_some_iff.mp hc0head).symm
        subst hr0
        have hclmem : cl ∈ c0 :: rs := List.mem_of_getLast?_eq_some hcllast
        have hclend : cl.end_char = cl.start_char + cs := hends cl hclmem
        have hclcover := (hunion cl.start_char).mp
          ⟨cl, hclmem, le_refl _, by rw [hclend]; omega⟩
        refine ⟨⟨_, rfl, rfl⟩, ?_, ?_, ?_⟩
        · intro c hc
          rcases List.mem_cons.mp hc with h | h
          · subst h; rfl
          · exact hends c h
        · rw [List.chain'_cons']
          refine ⟨?_, hchain⟩
          intro y hy
          rw [List.head?_cons] at hy
          have hy' : y = c0 := (Option.mem_some_iff.mp hy).symm
          subst hy'
          show y.start_char = start + cs - ov
          rw [hc0start]
        · refine ⟨cl, ?_, hcllen, ?_⟩
          · rw [List.getLast?_cons_cons]
            exact hcllast
          · intro p
            constructor
            · rintro ⟨c, hc, hc1, hc2⟩
              rcases List.mem_cons.mp hc with h | h
              · subst h
                have hc1' : start ≤ p := hc1
                have hc2' : p < start + cs := hc2
                refine ⟨hc1', ?_⟩
                omega
              · have hp := (hunion p).mp ⟨c, h, hc1, hc2⟩
                exact ⟨by omega, hp.2⟩
            · rintro ⟨hp1, hp2⟩
              by_cases hpc : p < start + cs
              · exact ⟨_, List.mem_cons_self _ _, show start ≤ p from hp1,
                  show p < start + cs from hpc⟩
              · obtain ⟨c, hcmem, hcsp⟩ := (hunion p).mpr ⟨by omega, hp2⟩
                exact ⟨c, List.mem_cons_of_mem _ hcmem, hcsp⟩
      · have hrest : rest = [] :=
          chunkLoop_of_ge t cs ov n _ (idx + 1) hstop rest hrec
        subst hrest
        refine ⟨⟨_, rfl, rfl⟩, ?_, ?_, ⟨_, rfl, ?_, ?_⟩⟩
        · intro c hc
          rcases List.mem_cons.mp hc with h | h
          · subst h; rfl
          · cases h
        · exact List.chain'_singleton _
        · show (t.length : Int) ≤ start + cs
          omega
        · intro p
          constructor
          · rintro ⟨c, hc, hc1, hc2⟩
            rcases List.mem_cons.mp hc with h | h
            · subst h
              exact ⟨hc1, hc2⟩
            · cases h
          · rintro ⟨hp1, hp2⟩
            exact ⟨_, List.mem_cons_self _ _, hp1, hp2⟩

/-- Claim C1 (amended): for a text longer than `chunk_size`, with valid
parameters and no sentence-terminal or whitespace characters (so the loop
terminates and neither snapping nor empty-slice skipping occurs), every
chunk satisfies `start_char < end_char`, consecutive chunks satisfy
`start_char[i+1] = end_char[i] - overlap` (so the claimed bound
`end_char[i] - start_char[i+1] ≤ overlap` holds with equality), the first
chunk starts at 0, and the spans union to exactly `[0, E)` where `E` is
the last `end_char`, with `len(T) ≤ E` — covering `[0, len(T))` but
overrunning it rather than being exactly `[0, len(T))`. -/
theorem C1_amended_spans (t : List Char) (cs ov : Int) (fuel : Nat)
    (chunks : List Chunk)
    (hcs : 0 < cs) (hov0 : 0 ≤ ov) (hov : ov < cs)
    (hlen : cs < (t.length : Int))
    (hplain : ∀ c ∈ t, isTerm c = false ∧ isSpace c = false)
    (hrun : createTextChunks t cs ov fuel = .ok chunks) :
    (∀ c ∈ chunks, c.start_char < c.end_char) ∧
    List.Chain' (fun a b => b.start_char = a.end_char - ov) chunks ∧
    (∃ c0 ∈ chunks.head?, c0.start_char = 0) ∧
    ∃ cl ∈ chunks.getLast?, (t.length : Int) ≤ cl.end_char ∧
      spansExactlyCover chunks cl.end_char := by
  have hcond : ¬(t.isEmpty = true ∨ (t.length : Int) ≤ cs) := by
    rintro (h1 | h2)
    · rw [List.isEmpty_iff] at h1
      subst h1
      simp at hlen
      omega
    · omega
  rw [createTextChunks, if_neg hcond] at hrun
  obtain ⟨hhead, hends, hchain, cl, hlast, hlen2, hunion⟩ :=
    chunkLoop_plain_spans t cs ov hcs hov0 hov (fun c hc => (hplain c hc).1)
      (fun c hc => (hplain c hc).2) fuel 0 1 chunks le_rfl (by omega) hrun
  refine ⟨?_, hchain, hhead, cl, hlast, hlen2, hunion⟩
  intro c hc
  rw [hends c hc]
  omega

/-- Witness for the amended C1 on seven `a` characters with
`chunk_size 5`, `overlap 2`. -/
theorem C1_amended_spans_witness :
    ((0 : Int) < 5 ∧ (0 : Int) ≤ 2 ∧ (2 : Int) < 5 ∧
     (5 : Int) < ("aaaaaaa".toList.length : Int) ∧
     (∀ c ∈ "aaaaaaa".toList, isTerm c = false ∧ isSpace c = false) ∧
     createTextChunks "aaaaaaa".toList 5 2 50 = .ok c1Chunks) ∧
    ((∀ c ∈ c1Chunks, c.start_char < c.end_char) ∧
     List.Chain' (fun a b => b.start_char = a.end_char - 2) c1Chunks ∧
     (∃ c0 ∈ c1Chunks.head?, c0.start_char = 0) ∧
     ∃ cl ∈ c1Chunks.getLast?, ("aaaaaaa".toList.length : Int) ≤ cl.end_char ∧
       spansExactlyCover c1Chunks cl.end_char) :=
  ⟨⟨by decide, by decide, by decide, by decide, by decide, by decide⟩,
   C1_amended_spans "aaaaaaa".toList 5 2 50 c1Chunks (by decide) (by decide)
     (by decide) (by decide) (by decide) (by decide)⟩

theorem assocSet_append (m : List (String × List Char)) (k : String)
    (v : List Char) (h : ∀ p ∈ m, p.1 ≠ k) :
    assocSet m k v = m ++ [(k, v)] := by
  induction m with
  | nil => rfl
  | cons p rest ih =>
    obtain ⟨k', v'⟩ := p
    simp only [assocSet]
    rw [if_neg (h ⟨k', v'⟩ (List.mem_cons_self _ _)),
        ih (fun q hq => h q (List.mem_cons_of_mem _ hq))]
    rfl

theorem sectionLines_append (a b : List (String × List Char)) :
    sectionLines (a ++ b) = sectionLines a ++ sectionLines b := by
  simp [sectionLines, List.map_append, List.flatten_append]

theorem matchLine_name_mem (l : List Char) (n : String)
    (h : matchLine l = some n) :
    n ∈ ["abstract", "introduction", "methods", "results", "discussion",
         "references", "appendix"] := by
  unfold matchLine at h
  obtain ⟨pair, hfind, hfst⟩ := Option.map_eq_some'.mp h
  have hmem := List.mem_of_find?_eq_some hfind
  subst hfst
  simp only [sectionCatalog, List.mem_cons, List.not_mem_nil, or_false] at hmem
  rcases hmem with h | h | h | h | h | h | h
  all_goals (subst h; simp)

theorem pyStrip_joinNL_clean (buf : List (List Char)) (hbne : buf ≠ [])
    (h : ∀ l ∈ buf, l ≠ [] ∧ (∀ c ∈ l.head?, isSpace c = false) ∧
      (∀ c ∈ l.getLast?, isSpace c = false)) :
    pyStrip (joinNL buf) = joinNL buf := by
  obtain ⟨w, ws, rfl⟩ := List.exists_cons_of_ne_nil hbne
  apply pyStrip_eq_self_of_ends
  · rw [joinNL_eq, joinSep_head? '\n' w ws (h w (by simp)).1]
    exact (h w (by simp)).2.1
  · cases hlast : (w :: ws).getLast? with
    | none => simp at hlast
    | some v =>
      rw [joinNL_eq, joinSep_getLast? '\n' w ws v
        (fun u hu => (h u (List.mem_cons_of_mem _ hu)).1) hlast]
      exact (h v (List.mem_of_getLast?_eq_some hlast)).2.2

theorem sectionLines_flush (cur : String) (buf : List (List Char))
    (acc : List (String × List Char))
    (hbuf : ∀ l ∈ buf, l ≠ [] ∧ '\n' ∉ l ∧ (∀ c ∈ l.head?, isSpace c = false) ∧
      (∀ c ∈ l.getLast?, isSpace c = false))
    (hacc : ∀ p ∈ acc, p.1 ≠ cur) :
    sectionLines (if buf.isEmpty then acc
      else assocSet acc cur (pyStrip (joinNL buf))) = sectionLines acc ++ buf := by
  cases hb : buf.isEmpty with
  | true =>
    have hnil : buf = [] := List.isEmpty_iff.mp hb
    subst hnil
    simp
  | false =>
    have hbne : buf ≠ [] := by simpa using hb
    rw [if_neg (by simp [hb]), assocSet_append acc cur _ hacc,
        sectionLines_append,
        pyStrip_joinNL_clean buf hbne
          (fun l hl => ⟨(hbuf l hl).1, (hbuf l hl).2.2.1, (hbuf l hl).2.2.2⟩)]
    simp only [sectionLines, List.map_cons, List.map_nil, List.flatten_cons,
      List.flatten_nil, List.append_nil]
    rw [joinNL_eq, splitNL_joinNL buf hbne (fun l hl => (hbuf l hl).2.1)]

theorem sectionsLoop_lines :
    ∀ (lines : List (List Char)) (cur : String) (buf : List (List Char))
      (acc : List (String × List Char)),
      (∀ l ∈ lines, l ≠ [] ∧ '\n' ∉ l ∧ (∀ c ∈ l.head?, isSpace c = false) ∧
        (∀ c ∈ l.getLast?, isSpace c = false)) →
      (∀ l ∈ buf, l ≠ [] ∧ '\n' ∉ l ∧ (∀ c ∈ l.head?, isSpace c = false) ∧
        (∀ c ∈ l.getLast?, isSpace c = false)) →
      (lines.filterMap matchLine).Nodup →
      (∀ n ∈ lines.filterMap matchLine, n ≠ cur) →
      (∀ p ∈ acc, p.1 ≠ cur ∧ ∀ n ∈ lines.filterMap matchLine, p.1 ≠ n) →
      sectionLines (sectionsLoop lines cur buf acc) =
        sectionLines acc ++ buf ++ lines.filter (fun l => (matchLine l).isNone)
  | [], cur, buf, acc, _, hbuf, _, _, hacc => by
    simp only [sectionsLoop, List.filter_nil, List.append_nil]
    exact sectionLines_flush cur buf acc hbuf (fun p hp => (hacc p hp).1)
  | line :: rest, cur, buf, acc, hl, hbuf, hnd, hcur, hacc => by
    simp only [sectionsLoop]
    cases hm : matchLine line with
    | none =>
      rw [List.filterMap_cons_none hm] at hnd hcur hacc
      rw [sectionsLoop_lines rest cur (buf ++ [line]) acc
        (fun x hx => hl x (List.mem_cons_of_mem _ hx))
        (fun x hx => by
          rcases List.mem_append.mp hx with h | h
          · exact hbuf x h
          · rw [List.mem_singleton] at h
            subst h
            exact hl x (List.mem_cons_self _ _))
        hnd hcur hacc]
      rw [List.filter_cons_of_pos (by simp [hm])]
      simp [List.append_assoc]
    | some name =>
      rw [List.filterMap_cons_some hm] at hnd hcur hacc
      have hnodup := List.nodup_cons.mp hnd
      have hname_ne_cur : name ≠ cur := hcur name (List.mem_cons_self _ _)
      rw [sectionsLoop_lines rest name [] _
        (fun x hx => hl x (List.mem_cons_of_mem _ hx))
        (fun x hx => absurd hx (List.not_mem_nil x))
        hnodup.2
        (fun n hn heq => hnodup.1 (heq ▸ hn))
        (fun p hp => by
          have hp' : p ∈ acc ∨ p.1 = cur := by
            cases hb : buf.isEmpty with
            | true =>
              rw [if_pos hb] at hp
              exact Or.inl hp
            | false =>
              rw [if_neg (by simp [hb]),
                assocSet_append acc cur _ (fun q hq => (hacc q hq).1)] at hp
              rcases List.mem_append.mp hp with h | h
              · exact Or.inl h
              · rw [List.mem_singleton] at h
                subst h
                exact Or.inr rfl
          rcases hp' with h | h
          · exact ⟨(hacc p h).2 name (List.mem_cons_self _ _),
              fun n hn => (hacc p h).2 n (List.mem_cons_of_mem _ hn)⟩
          · rw [h]
            exact ⟨fun heq => hname_ne_cur heq.symm,
              fun n hn heq => hcur n (List.mem_cons_of_mem _ hn) heq.symm⟩)]
      rw [sectionLines_flush cur buf acc hbuf (fun p hp => (hacc p hp).1)]
      rw [List.filter_cons_of_neg (by simp [hm])]
      simp [List.append_assoc]

/-- Claim C4 (amended): segmentation preserves exactly the non-header
lines.  If no two header lines match the same section, and every line is
non-empty with no leading or trailing whitespace, then splitting each
section value back into lines and concatenating in encounter order
reconstructs the subsequence of input lines that match no catalog entry.
Header lines themselves are dropped, so the full original sequence is not
reconstructed. -/
theorem C4_amended_lossless (text : List Char)
    (hl : ∀ l ∈ splitNL text, l ≠ [] ∧ (∀ c ∈ l.head?, isSpace c = false) ∧
      (∀ c ∈ l.getLast?, isSpace c = false))
    (hnd : ((splitNL text).filterMap matchLine).Nodup) :
    sectionLines (extractSections text) =
      (splitNL text).filter (fun l => (matchLine l).isNone) := by
  unfold extractSections
  rw [sectionsLoop_lines (splitNL text) "unknown" [] []
    (fun l hlm => ⟨(hl l hlm).1, splitNL_no_newline text l hlm,
      (hl l hlm).2.1, (hl l hlm).2.2⟩)
    (fun l hlm => absurd hlm (List.not_mem_nil l))
    hnd
    (fun n hn heq => by
      obtain ⟨l, hlmem, hml⟩ := List.mem_filterMap.mp hn
      rw [heq] at hml
      exact absurd (matchLine_name_mem l "unknown" hml) (by decide))
    (fun p hp => absurd hp (List.not_mem_nil p))]
  simp [sectionLines]

/-- Witness for the amended C4 on a six-line text with two distinct
header lines. -/
theorem C4_amended_lossless_witness :
    ((∀ l ∈ splitNL c4Text, l ≠ [] ∧ (∀ c ∈ l.head?, isSpace c = false) ∧
        (∀ c ∈ l.getLast?, isSpace c = false)) ∧
     ((splitNL c4Text).filterMap matchLine).Nodup) ∧
    sectionLines (extractSections c4Text) =
      (splitNL c4Text).filter (fun l => (matchLine l).isNone) :=
  ⟨⟨by decide, by decide⟩, C4_amended_lossless c4Text (by decide) (by decide)⟩

theorem splitAux_words : ∀ (l acc : List Char),
    (∀ c ∈ acc, isSpace c = false) →
    ∀ w ∈ splitAux l acc, w ≠ [] ∧ ∀ c ∈ w, isSpace c = false
  | [], acc, hacc, w, hw => by
    simp only [splitAux] at hw
    split at hw
    · cases hw
    · rename_i hne
      rw [List.mem_singleton] at hw
      subst hw
      refine ⟨?_, fun c hc => hacc c (List.mem_reverse.mp hc)⟩
      have haccne : acc ≠ [] := fun h => hne (by rw [h]; rfl)
      simpa [List.reverse_eq_nil_iff] using haccne
  | c0 :: cs, acc, hacc, w, hw => by
    simp only [splitAux] at hw
    split at hw
    · split at hw
      · exact splitAux_words cs [] (by simp) w hw
      · rename_i hne
        rcases List.mem_cons.mp hw with h | h
        · subst h
          refine ⟨?_, fun c hc => hacc c (List.mem_reverse.mp hc)⟩
          have haccne : acc ≠ [] := fun h => hne (by rw [h]; rfl)
          simpa [List.reverse_eq_nil_iff] using haccne
        · exact splitAux_words cs [] (by simp) w h
    · rename_i hsp
      refine splitAux_words cs (c0 :: acc) ?_ w hw
      intro c hc
      rcases List.mem_cons.mp hc with rfl | h
      · simpa using hsp
      · exact hacc c h

theorem splitAux_chars (P : Char → Prop) : ∀ (l acc : List Char),
    (∀ c ∈ l, P c) → (∀ c ∈ acc, P c) →
    ∀ w ∈ splitAux l acc, ∀ c ∈ w, P c
  | [], acc, _, hacc, w, hw, c, hc => by
    simp only [splitAux] at hw
    split at hw
    · cases hw
    · rw [List.mem_singleton] at hw
      subst hw
      exact hacc c (List.mem_reverse.mp hc)
  | c0 :: cs, acc, hl, hacc, w, hw, c, hc => by
    simp only [splitAux] at hw
    split at hw
    · split at hw
      · exact splitAux_chars P cs [] (fun x hx => hl x (List.mem_cons_of_mem _ hx))
          (by simp) w hw c hc
      · rcases List.mem_cons.mp hw with h | h
        · subst h
          exact hacc c (List.mem_reverse.mp hc)
        · exact splitAux_chars P cs [] (fun x hx => hl x (List.mem_cons_of_mem _ hx))
            (by simp) w h c hc
    · refine splitAux_chars P cs (c0 :: acc)
        (fun x hx => hl x (List.mem_cons_of_mem _ hx)) ?_ w hw c hc
      intro x hx
      rcases List.mem_cons.mp hx with rfl | h
      · exact hl x (List.mem_cons_self _ _)
      · exact hacc x h

theorem splitAux_word_append : ∀ (w l acc : List Char),
    (∀ c ∈ w, isSpace c = false) →
    splitAux (w ++ l) acc = splitAux l (w.reverse ++ acc)
  | [], l, acc, _ => by simp
  | c :: cs, l, acc, hw => by
    have hc : isSpace c = false := hw c (List.mem_cons_self c cs)
    simp only [List.cons_append, splitAux, hc, Bool.false_eq_true, if_false,
      List.append_eq]
    rw [splitAux_word_append cs l (c :: acc)
      (fun x hx => hw x (List.mem_cons_of_mem _ hx))]
    simp [List.reverse_cons, List.append_assoc]

theorem pySplit_word (w : List Char) (hne : w ≠ [])
    (hch : ∀ c ∈ w, isSpace c = false) : pySplit w = [w] := by
  unfold pySplit
  have h := splitAux_word_append w [] [] hch
  rw [List.append_nil] at h
  rw [h]
  simp only [splitAux, List.append_nil]
  rw [if_neg (by simp [List.isEmpty_iff, List.reverse_eq_nil_iff, hne])]
  simp

theorem pySplit_joinSp : ∀ ws : List (List Char),
    (∀ w ∈ ws, w ≠ [] ∧ ∀ c ∈ w, isSpace c = false) →
    pySplit (joinSep ' ' ws) = ws
  | [], _ => rfl
  | [w], h => pySplit_word w (h w (by simp)).1 (h w (by simp)).2
  | w :: v :: vs, h => by
    obtain ⟨hne, hch⟩ := h w (List.mem_cons_self _ _)
    rw [joinSep_cons_cons]
    unfold pySplit
    rw [splitAux_word_append w (' ' :: joinSep ' ' (v :: vs)) [] hch,
        List.append_nil]
    simp only [splitAux]
    rw [if_pos (by decide : isSpace ' ' = true),
        if_neg (by simp [List.isEmpty_iff, List.reverse_eq_nil_iff, hne]),
        List.reverse_reverse]
    rw [show splitAux (joinSep ' ' (v :: vs)) [] = pySplit (joinSep ' ' (v :: vs))
        from rfl,
      pySplit_joinSp (v :: vs) (fun u hu => h u (List.mem_cons_of_mem _ hu))]

theorem pyStrip_joinSp_words (ws : List (List Char))
    (h : ∀ w ∈ ws, w ≠ [] ∧ ∀ c ∈ w, isSpace c = false) :
    pyStrip (joinSep ' ' ws) = joinSep ' ' ws := by
  cases ws with
  | nil => rfl
  | cons w vs =>
    apply pyStrip_eq_self_of_ends
    · rw [joinSep_head? ' ' w vs (h w (List.mem_cons_self _ _)).1]
      intro c hc
      exact (h w (List.mem_cons_self _ _)).2 c (List.mem_of_mem_head? hc)
    · cases hlast : (w :: vs).getLast? with
      | none => simp at hlast
      | some v =>
        rw [joinSep_getLast? ' ' w vs v
          (fun u hu => (h u (List.mem_cons_of_mem _ hu)).1) hlast]
        intro c hc
        exact (h v (List.mem_of_getLast?_eq_some hlast)).2 c
          (List.mem_of_getLast?_eq_some hc)

theorem dashComp (c : Char) :
    (fun c => if c = '—' then '-' else c) ((fun c => if c = '–' then '-' else c) c)
      = dashNorm c := by
  by_cases h1 : c = '–'
  · subst h1; decide
  · by_cases h2 : c = '—'
    · subst h2; decide
    · unfold dashNorm
      simp [h1, h2]

theorem dashNorm_idem (d : Char) : dashNorm (dashNorm d) = dashNorm d := by
  by_cases h1 : d = '–'
  · subst h1; decide
  · by_cases h2 : d = '—'
    · subst h2; decide
    · unfold dashNorm
      simp [h1, h2]

theorem isSpace_dashNorm (d : Char) (hd : isSpace d = false) :
    isSpace (dashNorm d) = false := by
  by_cases h1 : d = '–'
  · subst h1; decide
  · by_cases h2 : d = '—'
    · subst h2; decide
    · unfold dashNorm
      simp [h1, h2, hd]

theorem dashNorm_ne_null (d : Char) (hd : ¬(d = '\x00')) :
    ¬(dashNorm d = '\x00') := by
  by_cases h1 : d = '–'
  · subst h1; decide
  · by_cases h2 : d = '—'
    · subst h2; decide
    · unfold dashNorm
      simpa [h1, h2] using hd

theorem cleanText_closed (u : List Char) (hne : u.isEmpty = false)
    (h0 : ∀ c ∈ u, ¬(c = '\x00')) :
    cleanText u = pyStrip (joinSep ' ' ((pySplit u).map (List.map dashNorm))) := by
  have hwords := splitAux_words u [] (by simp)
  have hchars : ∀ w ∈ pySplit u, ∀ c ∈ w, c ∈ u :=
    fun w hw c hc =>
      splitAux_chars (· ∈ u) u [] (fun x hx => hx) (by simp) w hw c hc
  have hmem : ∀ c ∈ joinSep ' ' (pySplit u), c = ' ' ∨ ∃ w ∈ pySplit u, c ∈ w :=
    fun c hc => mem_joinSep ' ' (pySplit u) c hc
  have hnull : ∀ c ∈ joinSep ' ' (pySplit u), ¬(c = '\x00') := by
    intro c hc
    rcases hmem c hc with h | ⟨w, hw, hcw⟩
    · rw [h]; decide
    · exact h0 c (hchars w hw c hcw)
  have hnospace : ∀ c ∈ joinSep ' ' (pySplit u), c = ' ' ∨ isSpace c = false := by
    intro c hc
    rcases hmem c hc with h | ⟨w, hw, hcw⟩
    · exact Or.inl h
    · exact Or.inr ((hwords w hw).2 c hcw)
  unfold cleanText
  rw [if_neg (by simp [hne])]
  dsimp only
  rw [show joinSp (pySplit u) = joinSep ' ' (pySplit u) from rfl]
  rw [List.filter_eq_self.mpr (fun c hc => by
    simpa using hnull c hc)]
  rw [@map_eq_self_of_fixed (fun c => if c = '\x0c' then ' ' else c)
    (joinSep ' ' (pySplit u)) (fun c hc => by
      rcases hnospace c hc with h | h
      · rw [h]; rfl
      · have hcc : ¬(c = '\x0c') := fun he => by
          rw [he] at h; exact absurd h (by decide)
        simp [hcc])]
  rw [@map_eq_self_of_fixed (fun c => if c = '\x0b' then ' ' else c)
    (joinSep ' ' (pySplit u)) (fun c hc => by
      rcases hnospace c hc with h | h
      · rw [h]; rfl
      · have hcc : ¬(c = '\x0b') := fun he => by
          rw [he] at h; exact absurd h (by decide)
        simp [hcc])]
  rw [@map_eq_self_of_fixed (fun c => if c = '"' then '"' else c)
    (joinSep ' ' (pySplit u)) (fun c _ => by
      by_cases h : c = '"' <;> simp [h])]
  rw [@map_eq_self_of_fixed (fun c => if c = '"' then '"' else c)
    (joinSep ' ' (pySplit u)) (fun c _ => by
      by_cases h : c = '"' <;> simp [h])]
  rw [List.map_map,
      show ((fun c => if c = '—' then '-' else c) ∘
        (fun c => if c = '–' then '-' else c)) = dashNorm from funext dashComp,
      map_joinSep dashNorm ' ' (by decide)]

theorem cleanText_joinSep_fixed (ws : List (List Char))
    (hwprops : ∀ w ∈ ws, w ≠ [] ∧ ∀ c ∈ w, isSpace c = false)
    (hfix : ws.map (List.map dashNorm) = ws)
    (hnull : ∀ c ∈ joinSep ' ' ws, ¬(c = '\x00')) :
    cleanText (joinSep ' ' ws) = joinSep ' ' ws := by
  cases ws with
  | nil => rfl
  | cons w vs =>
    have hJne : (joinSep ' ' (w :: vs)).isEmpty = false := by
      rw [List.isEmpty_eq_false]
      exact joinSep_ne_nil ' ' w vs (hwprops w (List.mem_cons_self _ _)).1
    rw [cleanText_closed _ hJne hnull, pySplit_joinSp _ hwprops, hfix,
        pyStrip_joinSp_words _ hwprops]

/-- Claim C6 (amended): the cleaner is idempotent on every text that
contains no null character.  (On texts with a null between whitespace it
is not: see the counterexample.) -/
theorem C6_amended_idempotent (t : List Char) (h0 : '\x00' ∉ t) :
    cleanText (cleanText t) = cleanText t := by
  cases hte : t.isEmpty with
  | true =>
    rw [List.isEmpty_iff.mp hte]
    rfl
  | false =>
    have h0' : ∀ c ∈ t, ¬(c = '\x00') := fun c hc he => h0 (he ▸ hc)
    have hwords₀ := splitAux_words t [] (by simp)
    have hchars₀ : ∀ w ∈ pySplit t, ∀ c ∈ w, c ∈ t :=
      fun w hw c hc =>
        splitAux_chars (· ∈ t) t [] (fun x hx => hx) (by simp) w hw c hc
    have hwprops : ∀ w ∈ (pySplit t).map (List.map dashNorm),
        w ≠ [] ∧ ∀ c ∈ w, isSpace c = false := by
      intro w hw
      obtain ⟨w₀, hw₀, rfl⟩ := List.mem_map.mp hw
      obtain ⟨hne₀, hch₀⟩ := hwords₀ w₀ hw₀
      refine ⟨by simpa using hne₀, ?_⟩
      intro c hc
      obtain ⟨d, hd, rfl⟩ := List.mem_map.mp hc
      exact isSpace_dashNorm d (hch₀ d hd)
    have hfix : ((pySplit t).map (List.map dashNorm)).map (List.map dashNorm) =
        (pySplit t).map (List.map dashNorm) := by
      rw [List.map_map]
      apply List.map_congr_left
      intro w₀ _
      show List.map dashNorm (List.map dashNorm w₀) = List.map dashNorm w₀
      rw [List.map_map]
      apply List.map_congr_left
      intro d _
      exact dashNorm_idem d
    have hnull : ∀ c ∈ joinSep ' ' ((pySplit t).map (List.map dashNorm)),
        ¬(c = '\x00') := by
      intro c hc
      rcases mem_joinSep ' ' _ c hc with h | ⟨w, hw, hcw⟩
      · rw [h]; decide
      · obtain ⟨w₀, hw₀, rfl⟩ := List.mem_map.mp hw
        obtain ⟨d, hd, rfl⟩ := List.mem_map.mp hcw
        exact dashNorm_ne_null d (h0' d (hchars₀ w₀ hw₀ d hd))
    rw [cleanText_closed t hte h0', pyStrip_joinSp_words _ hwprops]
    exact cleanText_joinSep_fixed _ hwprops hfix hnull

/-- Witness for the amended C6 on a null-free text with dashes and
multiple spaces. -/
theorem C6_amended_idempotent_witness :
    '\x00' ∉ "x  –  y".toList ∧
    cleanText (cleanText "x  –  y".toList) = cleanText "x  –  y".toList :=
  ⟨by decide, C6_amended_idempotent "x  –  y".toList (by decide)⟩

